import Mathlib

/-!
Verification of the diff-to-table rendering engine and comment grouping of
the SPRR repository (`src/utils/formatters.js`), shallowly embedded in Lean.

Strings are modelled by Lean `String`/`List Char`; JS numbers that only ever
hold non-negative integers (the running line counters) are modelled by `Nat`;
code that can throw returns `Except String` (the `String` being the error
kind).  The external highlighter `hljs.highlightAuto` is an opaque
collaborator of the engine and is modelled as a parameter
`hl : String → Option String`, where `none` models a throwing call.
-/

set_option maxRecDepth 100000

deriving instance DecidableEq for Except

namespace SPRR

/-- Line classification produced by `formatDiffForTable`'s first pass
(the JS strings "add" / "remove" / "context"). -/
inductive LineType where
  | add
  | remove
  | context
deriving DecidableEq, Repr

/-- One entry of the `lineNumbers` array.  In JS each cell holds either a
number or the empty string `""`; `none` models `""` and `some n` models the
number `n` (rendered in decimal by template interpolation). -/
structure NumPair where
  old : Option Nat
  new : Option Nat
deriving DecidableEq, Repr

/-- Result of the first pass of `formatDiffForTable`: the three parallel
arrays `codeLines`, `lineTypes`, `lineNumbers`. -/
structure ClassifyOut where
  codeLines : List String
  lineTypes : List LineType
  lineNumbers : List NumPair
deriving DecidableEq, Repr

/-- `escapeHtml`'s per-character replacement table
(regex `/[&<>"']/g` with the `htmlEscapeMap`). -/
def escapeChar (c : Char) : String :=
  if c = '&' then "&amp;"
  else if c = '<' then "&lt;"
  else if c = '>' then "&gt;"
  else if c = '"' then "&quot;"
  else if c = '\'' then "&#39;"
  else String.singleton c

/-- `escapeHtml`: replaces every `& < > " '` by its HTML entity. -/
def escapeHtml (s : String) : String :=
  String.join (s.toList.map escapeChar)

/-- `parseInt(digits, 10)` on a non-empty digit string. -/
def digitsToNat (ds : List Char) : Nat :=
  ds.foldl (fun a c => a * 10 + (c.toNat - 48)) 0

/-- Attempt to match the hunk-header regex `@@ -(\d+),?\d* \+(\d+),?\d* @@`
at the head of the character list.  `\d+` is matched maximally; an optional
comma followed by further digits is then consumed; the backtracking
behaviour of the JS regex is equivalent to this deterministic reading. -/
def matchHunkAt (cs : List Char) : Option (Nat × Nat) :=
  match cs with
  | '@' :: '@' :: ' ' :: '-' :: rest =>
    let p1 := rest.span Char.isDigit
    if p1.1.isEmpty then none else
    let rest2 := match p1.2 with
      | ',' :: r => (r.span Char.isDigit).2
      | other => other
    match rest2 with
    | ' ' :: '+' :: rest3 =>
      let p2 := rest3.span Char.isDigit
      if p2.1.isEmpty then none else
      let rest4 := match p2.2 with
        | ',' :: r => (r.span Char.isDigit).2
        | other => other
      match rest4 with
      | ' ' :: '@' :: '@' :: _ => some (digitsToNat p1.1, digitsToNat p2.1)
      | _ => none
    | _ => none
  | _ => none

/-- Search for the first position where the hunk-header pattern matches,
like the unanchored JS `line.match(/@@ -(\d+),?\d* \+(\d+),?\d* @@/)`. -/
def parseHunkCore : List Char → Option (Nat × Nat)
  | [] => none
  | c :: rest =>
    match matchHunkAt (c :: rest) with
    | some r => some r
    | none => parseHunkCore rest

/-- The hunk-header match of `formatDiffForTable`: captures the old and new
start line numbers, or `none` when the regex does not match. -/
def parseHunkHeader (line : String) : Option (Nat × Nat) :=
  parseHunkCore line.toList

/-- JS `String.prototype.startsWith`, phrased on the character lists (the
built-in `String.startsWith` is observably the same but does not reduce
inside the kernel). -/
def jsStartsWith (s pre : String) : Bool :=
  pre.toList.isPrefixOf s.toList

/-- JS `String.prototype.slice(1)`: drop the first character. -/
def jsDrop1 (s : String) : String :=
  List.asString s.toList.tail

/-- JS `patch.split("\n")` on the character list: splitting an empty string
yields `[[]]`, and each `'\n'` starts a new chunk. -/
def splitLinesCh : List Char → List (List Char)
  | [] => [[]]
  | c :: rest =>
    match splitLinesCh rest with
    | [] => [[]]
    | l :: ls => if c = '\n' then [] :: l :: ls else (c :: l) :: ls

/-- JS `patch.split("\n")`. -/
def splitLines (s : String) : List String :=
  (splitLinesCh s.toList).map List.asString

/-- First pass of `formatDiffForTable` (lines 212–250 of
`src/utils/formatters.js`): walks the physical lines, updating the
`oldLine` / `newLine` counters, and collects the three parallel arrays. -/
def classify : List String → Nat → Nat → ClassifyOut
  | [], _, _ => ⟨[], [], []⟩
  | line :: rest, o, n =>
    if jsStartsWith line "@@" then
      match parseHunkHeader line with
      | some r => classify rest r.1 r.2
      | none => classify rest o n
    else if jsStartsWith line "+++" || jsStartsWith line "---" then
      classify rest o n
    else if jsStartsWith line "+" then
      let r := classify rest o (n + 1)
      ⟨jsDrop1 line :: r.codeLines, .add :: r.lineTypes, ⟨none, some n⟩ :: r.lineNumbers⟩
    else if jsStartsWith line "-" then
      let r := classify rest (o + 1) n
      ⟨jsDrop1 line :: r.codeLines, .remove :: r.lineTypes, ⟨some o, none⟩ :: r.lineNumbers⟩
    else
      let code := if jsStartsWith line " " then jsDrop1 line else line
      let o2 := if o = 0 then o else o + 1
      let n2 := if n = 0 then n else n + 1
      let r := classify rest o2 n2
      ⟨code :: r.codeLines, .context :: r.lineTypes,
        ⟨if o = 0 then none else some o, if n = 0 then none else some n⟩ :: r.lineNumbers⟩

/-- The first pass applied to a patch, after `patch.split("\n")`. -/
def classifyPatch (patch : String) : ClassifyOut :=
  classify (splitLines patch) 0 0

/-- Split a list at the first `'>'`: returns the characters before it and
the characters after it, or `none` when there is no `'>'`.  This is how the
greedy `[^>]*>` part of the wrapper-tag regex `/^<(\/?span[^>]*)>/` of
`splitHighlightedHtml` consumes input. -/
def takeUntilGt : List Char → Option (List Char × List Char)
  | [] => none
  | c :: rest =>
    if c = '>' then some ([], rest)
    else
      match takeUntilGt rest with
      | some (mid, r) => some (c :: mid, r)
      | none => none

/-- The tag match `html.slice(i).match(/^<(\/?span[^>]*)>/)` of
`splitHighlightedHtml`: on success returns the full tag text, whether the
tag content starts with `/` (a closing tag), and the remaining input. -/
def matchSpanTag (cs : List Char) : Option (List Char × Bool × List Char) :=
  match cs with
  | '<' :: '/' :: 's' :: 'p' :: 'a' :: 'n' :: r =>
    match takeUntilGt r with
    | some (mid, rest2) =>
      some ('<' :: '/' :: 's' :: 'p' :: 'a' :: 'n' :: (mid ++ ['>']), true, rest2)
    | none => none
  | '<' :: 's' :: 'p' :: 'a' :: 'n' :: r =>
    match takeUntilGt r with
    | some (mid, rest2) =>
      some ('<' :: 's' :: 'p' :: 'a' :: 'n' :: (mid ++ ['>']), false, rest2)
    | none => none
  | _ => none

/-- `n` copies of the closing tag text `</span>` appended when a newline is
reached with `n` open tags on the stack. -/
def closeTags : Nat → List Char
  | 0 => []
  | n + 1 => '<' :: '/' :: 's' :: 'p' :: 'a' :: 'n' :: '>' :: closeTags n

/-- The scanning loop of `splitHighlightedHtml`, with an explicit fuel
argument so that the recursion is structural (every step consumes at least
one character, so any `fuel ≥ cs.length` gives the loop's behaviour; see
`splitHLF_congr`).  State: remaining input, `currentLine`, `tagStack`. -/
def splitHLF : Nat → List Char → List Char → List (List Char) → List (List Char)
  | _, [], cur, _ => if cur.isEmpty then [] else [cur]
  | 0, _ :: _, cur, _ => if cur.isEmpty then [] else [cur]
  | fuel + 1, c :: rest, cur, stk =>
    if c = '\n' then
      (cur ++ closeTags stk.length) :: splitHLF fuel rest stk.flatten stk
    else if c = '<' then
      match matchSpanTag (c :: rest) with
      | some (tag, isClosing, rest2) =>
        if isClosing then splitHLF fuel rest2 (cur ++ tag) stk.dropLast
        else splitHLF fuel rest2 (cur ++ tag) (stk ++ [tag])
      | none => splitHLF fuel rest (cur ++ [c]) stk
    else splitHLF fuel rest (cur ++ [c]) stk

/-- The loop of `splitHighlightedHtml` run on its input (fuel = length). -/
def splitHL (cs cur : List Char) (stk : List (List Char)) : List (List Char) :=
  splitHLF cs.length cs cur stk

/-- `splitHighlightedHtml`: splits a highlighted HTML blob into per-line
fragments, closing the open span tags before each newline and reopening
them on the following line; the final `currentLine` is pushed when
non-empty. -/
def splitHighlightedHtml (html : String) : List String :=
  (splitHL html.toList [] []).map List.asString

/-- Count of the opening and closing wrapper tags a fragment contains,
recognized exactly as `splitHighlightedHtml` recognizes them (fuel-phrased
like `splitHLF`). -/
def spanCountsF : Nat → List Char → Nat × Nat
  | _, [] => (0, 0)
  | 0, _ :: _ => (0, 0)
  | fuel + 1, c :: rest =>
    if c = '<' then
      match matchSpanTag (c :: rest) with
      | some (_, isClosing, rest2) =>
        let p := spanCountsF fuel rest2
        if isClosing then (p.1, p.2 + 1) else (p.1 + 1, p.2)
      | none => spanCountsF fuel rest
    else spanCountsF fuel rest

/-- Opening/closing wrapper-tag counts of a fragment. -/
def spanCounts (cs : List Char) : Nat × Nat :=
  spanCountsF cs.length cs

/-- `renderNum`: how a line-number cell value is interpolated into the row
markup — the empty string for an absent number, the decimal for a number. -/
def renderNum : Option Nat → String
  | none => ""
  | some n => toString n

/-- The `diff-add-row` markup of the third pass (lines 281–285). -/
def addRow (nums : NumPair) (code : String) : String :=
  "<tr class=\"diff-add-row\">" ++
  "<td class=\"diff-line-num diff-line-num-old\"></td>" ++
  "<td class=\"diff-line-num diff-line-num-new\">" ++ renderNum nums.new ++ "</td>" ++
  "<td class=\"diff-line diff-add\"><span class=\"add\">+</span>" ++ code ++ "</td>" ++
  "</tr>"

/-- The `diff-remove-row` markup of the third pass (lines 287–291). -/
def removeRow (nums : NumPair) (code : String) : String :=
  "<tr class=\"diff-remove-row\">" ++
  "<td class=\"diff-line-num diff-line-num-old\">" ++ renderNum nums.old ++ "</td>" ++
  "<td class=\"diff-line-num diff-line-num-new\"></td>" ++
  "<td class=\"diff-line diff-remove\"><span class=\"rem\">-</span>" ++ code ++ "</td>" ++
  "</tr>"

/-- The `diff-context-row` markup of the third pass (lines 293–297). -/
def contextRow (nums : NumPair) (code : String) : String :=
  "<tr class=\"diff-context-row\">" ++
  "<td class=\"diff-line-num diff-line-num-old\">" ++ renderNum nums.old ++ "</td>" ++
  "<td class=\"diff-line-num diff-line-num-new\">" ++ renderNum nums.new ++ "</td>" ++
  "<td class=\"diff-line diff-context\"><span> </span>" ++ code ++ "</td>" ++
  "</tr>"

/-- Third pass of `formatDiffForTable` (lines 275–299): one row per entry of
`highlightedLines`, reading `lineTypes[i]` and `lineNumbers[i]`.  In JS an
index beyond `lineTypes` yields `undefined`, which falls into the context
branch; interpolating a field of an `undefined` `lineNumbers[i]` throws a
`TypeError`, modelled by `Except.error`. -/
def buildRows : List String → List LineType → List NumPair → Nat → Except String String
  | [], _, _, _ => .ok ""
  | code :: rest, ts, ns, i =>
    match ts[i]? with
    | some .add =>
      match ns[i]? with
      | some p => (buildRows rest ts ns (i + 1)).map (fun s => addRow p code ++ s)
      | none => .error "TypeError"
    | some .remove =>
      match ns[i]? with
      | some p => (buildRows rest ts ns (i + 1)).map (fun s => removeRow p code ++ s)
      | none => .error "TypeError"
    | _ =>
      match ns[i]? with
      | some p => (buildRows rest ts ns (i + 1)).map (fun s => contextRow p code ++ s)
      | none => .error "TypeError"

/-- The fixed placeholder returned for a falsy patch (line 200). -/
def noDiffPlaceholder : String := "<p class=\"no-diff\">No diff available</p>"

/-- Second pass of `formatDiffForTable` (lines 252–270): highlight the
joined code block and split it, falling back to HTML-escaping each original
line when the highlighter throws (`hl _ = none`); an empty `codeLines`
skips the highlighter and yields no fragments. -/
def fragmentsOf (hl : String → Option String) (patch : String) : List String :=
  let r := classifyPatch patch
  if r.codeLines.length > 0 then
    match hl (String.intercalate "\n" r.codeLines) with
    | some h => splitHighlightedHtml h
    | none => r.codeLines.map escapeHtml
  else []

/-- `formatDiffForTable` on a string patch.  A falsy (empty) patch
short-circuits to the placeholder; otherwise the three passes run and the
rows are wrapped in the `diff-table` element.  The result is an `Except`
because the third pass can throw when the fragment array is longer than the
classifier arrays. -/
def formatDiffForTable (hl : String → Option String) (patch : String) :
    Except String String :=
  if patch = "" then .ok noDiffPlaceholder
  else
    (buildRows (fragmentsOf hl patch) (classifyPatch patch).lineTypes
        (classifyPatch patch).lineNumbers 0).map
      (fun rows => "<table class=\"diff-table\">" ++ rows ++ "</table>")

/-- The identity highlighter: returns its input unchanged.  A legitimate
instance of the highlighter contract (it preserves the newline count and
emits no markup of its own); also agrees with `hljs.highlightAuto` on the
empty string, whose highlighted value is `""`. -/
def hlId : String → Option String := fun s => some s

/-- A highlighter that always throws. -/
def hlThrow : String → Option String := fun _ => none

/-- A review comment as consumed by `groupByFile`: the fields the code
reads.  `path` may be absent (`none`) or any string; `line` and
`original_line` may be absent or any number. -/
structure Comment where
  id : Nat
  path : Option String
  line : Option Int
  original_line : Option Int
deriving DecidableEq, Repr

/-- JS truthiness of an optional number: present and non-zero. -/
def truthyInt : Option Int → Option Int
  | some n => if n = 0 then none else some n
  | none => none

/-- `getCommentLineNumber`: `comment?.line || comment?.original_line || 0`. -/
def getCommentLineNumber (c : Comment) : Int :=
  match truthyInt c.line with
  | some n => n
  | none =>
    match truthyInt c.original_line with
    | some m => m
    | none => 0

/-- JS truthiness of the `path` field (`const path = comment?.path; if
(!path)`): an absent path and the empty string are both falsy. -/
def truthyPath (c : Comment) : Option String :=
  match c.path with
  | some p => if p = "" then none else some p
  | none => none

/-- `acc[path].push(comment)`, creating `acc[path] = []` first when the key
is absent.  The accumulator models the JS object as an association list in
key-insertion order (string keys of a JS object iterate in insertion
order). -/
def insertComment : List (String × List Comment) → String → Comment →
    List (String × List Comment)
  | [], p, c => [(p, [c])]
  | (q, g) :: rest, p, c =>
    if q = p then (q, g ++ [c]) :: rest
    else (q, g) :: insertComment rest p c

/-- The `reduce` of `groupByFile` (lines 104–116): comments with a falsy
`path` are skipped and logged with `console.warn` (the second component of
the result collects the warned-about comments, in order). -/
def groupPhaseLog : List Comment → List (String × List Comment) → List Comment →
    List (String × List Comment) × List Comment
  | [], acc, log => (acc, log)
  | c :: rest, acc, log =>
    match truthyPath c with
    | some p => groupPhaseLog rest (insertComment acc p c) log
    | none => groupPhaseLog rest acc (log ++ [c])

/-- Stable insertion of a comment into a list sorted by
`getCommentLineNumber`: placed after every strictly smaller key and before
the first greater-or-equal key. -/
def insertSorted (c : Comment) : List Comment → List Comment
  | [] => [c]
  | d :: ds =>
    if getCommentLineNumber c ≤ getCommentLineNumber d then c :: d :: ds
    else d :: insertSorted c ds

/-- `groups[path].sort((a, b) => getCommentLineNumber(a) -
getCommentLineNumber(b))`: ECMAScript requires `Array.prototype.sort` to be
stable, and a stable sort by a total numeric key has a unique result,
realized here as stable insertion sort. -/
def sortComments : List Comment → List Comment
  | [] => []
  | c :: cs => insertSorted c (sortComments cs)

/-- `groupByFile` on an array: group by truthy `path`, then sort each group
by line number in place. -/
def groupByFile (comments : List Comment) : List (String × List Comment) :=
  (groupPhaseLog comments [] []).1.map (fun pr => (pr.1, sortComments pr.2))

/-- The comments `groupByFile` reports to `console.warn` (those with a
falsy `path`), in encounter order. -/
def groupWarnings (comments : List Comment) : List Comment :=
  (groupPhaseLog comments [] []).2

/-- A dynamically typed JS value, for the entry-point type checks: a
string, a number, a boolean, `null`, or `undefined`. -/
inductive JsVal where
  | vstr : String → JsVal
  | vnum : Int → JsVal
  | vbool : Bool → JsVal
  | vnull
  | vundefined
deriving DecidableEq, Repr

/-- JS truthiness of a value. -/
def jsTruthy : JsVal → Bool
  | .vstr s => decide (s ≠ "")
  | .vnum n => decide (n ≠ 0)
  | .vbool b => b
  | .vnull => false
  | .vundefined => false

/-- `formatDiffForTable` as called with an arbitrary JS value: `if
(!patch)` returns the placeholder for every falsy argument; a truthy
string runs the pipeline; any truthy non-string throws a `TypeError` at
`patch.split("\n")`. -/
def formatDiffForTableJs (hl : String → Option String) (v : JsVal) :
    Except String String :=
  if jsTruthy v then
    match v with
    | .vstr s => formatDiffForTable hl s
    | _ => .error "TypeError: patch.split is not a function"
  else .ok noDiffPlaceholder

/-- `groupByFile` as called with an arbitrary JS value: `none` models any
argument for which `Array.isArray` is false, which throws the descriptive
error of lines 99–101; an array runs the grouping. -/
def groupByFileJs : Option (List Comment) → Except String (List (String × List Comment))
  | some cs => .ok (groupByFile cs)
  | none => .error "groupByFile expects an array as input"

/-! ### Lemmas about the classifier and the table pass -/

/-- The classifier's three arrays always have equal length: each branch
either skips the line in all three or conses onto all three. -/
theorem classify_lengths (lines : List String) (o n : Nat) :
    (classify lines o n).lineTypes.length = (classify lines o n).codeLines.length ∧
    (classify lines o n).lineNumbers.length = (classify lines o n).codeLines.length := by
  induction lines generalizing o n with
  | nil => simp [classify]
  | cons line rest ih =>
    simp only [classify]
    split
    · split
      · exact ih _ _
      · exact ih _ _
    · split
      · exact ih _ _
      · split
        · simpa using ih _ _
        · split
          · simpa using ih _ _
          · simpa using ih _ _

/-- When the fragments do not outrun the classifier arrays, the table pass
succeeds. -/
theorem buildRows_ok (frags : List String) (ts : List LineType) (ns : List NumPair)
    (i : Nat) (hlen : ts.length = ns.length) (hle : frags.length + i ≤ ts.length) :
    ∃ s, buildRows frags ts ns i = .ok s := by
  induction frags generalizing i with
  | nil => exact ⟨"", rfl⟩
  | cons f rest ih =>
    have hi : i < ts.length := by simp at hle; omega
    have ht : ts[i]? = some ts[i] := List.getElem?_eq_getElem hi
    have hp : ns[i]? = some ns[i] := List.getElem?_eq_getElem (by omega)
    obtain ⟨s, hs⟩ := ih (i + 1) (by simp at hle ⊢; omega)
    cases htt : ts[i] with
    | add =>
      exact ⟨addRow ns[i] f ++ s, by simp [buildRows, ht, hp, htt, hs, Except.map]⟩
    | remove =>
      exact ⟨removeRow ns[i] f ++ s, by simp [buildRows, ht, hp, htt, hs, Except.map]⟩
    | context =>
      exact ⟨contextRow ns[i] f ++ s, by simp [buildRows, ht, hp, htt, hs, Except.map]⟩

/-- When the fragments outrun the classifier arrays, the table pass reads
`lineTypes[i] = undefined`, falls into the context branch, and throws on
`lineNumbers[i].old`. -/
theorem buildRows_oob (f : String) (rest : List String) (ts : List LineType)
    (ns : List NumPair) (i : Nat) (ht : ts[i]? = none) (hp : ns[i]? = none) :
    buildRows (f :: rest) ts ns i = .error "TypeError" := by
  simp only [buildRows]
  simp [ht, hp]

/-- An error in the tail of the table pass propagates. -/
theorem buildRows_cons_err (f : String) (rest : List String) (ts : List LineType)
    (ns : List NumPair) (i : Nat)
    (herr : buildRows rest ts ns (i + 1) = .error "TypeError") :
    buildRows (f :: rest) ts ns i = .error "TypeError" := by
  simp only [buildRows]
  cases hts : ts[i]? with
  | none =>
    cases hns : ns[i]? with
    | none => simp [hts, hns]
    | some p => simp [hts, hns, herr, Except.map]
  | some t =>
    cases t with
    | add =>
      cases hns : ns[i]? with
      | none => simp [hts, hns]
      | some p => simp [hts, hns, herr, Except.map]
    | remove =>
      cases hns : ns[i]? with
      | none => simp [hts, hns]
      | some p => simp [hts, hns, herr, Except.map]
    | context =>
      cases hns : ns[i]? with
      | none => simp [hts, hns]
      | some p => simp [hts, hns, herr, Except.map]

theorem buildRows_err (f : String) (rest : List String) (ts : List LineType)
    (ns : List NumPair) (i : Nat) (hlen : ts.length = ns.length)
    (hgt : ts.length < (f :: rest).length + i) :
    buildRows (f :: rest) ts ns i = .error "TypeError" := by
  induction rest generalizing f i with
  | nil =>
    exact buildRows_oob f [] ts ns i (List.getElem?_eq_none (by simp at hgt; omega))
      (List.getElem?_eq_none (by simp at hgt; omega))
  | cons g rest' ih =>
    by_cases hi : i < ts.length
    · exact buildRows_cons_err f (g :: rest') ts ns i
        (ih g (i + 1) (by simp at hgt ⊢; omega))
    · exact buildRows_oob f (g :: rest') ts ns i (List.getElem?_eq_none (by omega))
        (List.getElem?_eq_none (by omega))

/-- Right-fold concatenation of a list of row strings. -/
def strConcat (l : List String) : String :=
  l.foldr (fun a b => a ++ b) ""

/-- Modelled from the spec (§4.5 TableRenderer, "zips (type, numbers,
highlighted fragment) for each index into one table row"): the list of row
strings, one per fragment, obtained by reading `lineTypes[i]` and
`lineNumbers[i]` exactly as the JS loop does (an out-of-range type falls
into the context branch; an out-of-range number entry is the throwing
case, `none`). -/
def rowsSpec : List String → List LineType → List NumPair → Nat → Option (List String)
  | [], _, _, _ => some []
  | code :: rest, ts, ns, i =>
    match ns[i]? with
    | none => none
    | some p =>
      (rowsSpec rest ts ns (i + 1)).map (fun l =>
        (match ts[i]? with
         | some .add => addRow p code
         | some .remove => removeRow p code
         | _ => contextRow p code) :: l)

/-- The specified row list has exactly one row per fragment. -/
theorem rowsSpec_length (frags : List String) (ts : List LineType) (ns : List NumPair) :
    ∀ (i : Nat) (l : List String), rowsSpec frags ts ns i = some l →
    l.length = frags.length := by
  induction frags with
  | nil =>
    intro i l h
    cases h
    rfl
  | cons code rest ih =>
    intro i l h
    simp only [rowsSpec] at h
    cases hns : ns[i]? with
    | none => rw [hns] at h; cases h
    | some p =>
      rw [hns] at h
      cases hrec : rowsSpec rest ts ns (i + 1) with
      | none => rw [hrec] at h; cases h
      | some l' =>
        rw [hrec] at h
        simp only [Option.map] at h
        cases h
        simp [ih (i + 1) l' hrec]

/-- The table pass computes exactly the specified rows: when the row spec
is defined the output is its concatenation, and when it is undefined
(an index beyond the number array) the pass throws. -/
theorem buildRows_eq_rowsSpec (frags : List String) (ts : List LineType)
    (ns : List NumPair) : ∀ i : Nat,
    (∀ l, rowsSpec frags ts ns i = some l →
      buildRows frags ts ns i = .ok (strConcat l)) ∧
    (rowsSpec frags ts ns i = none →
      buildRows frags ts ns i = .error "TypeError") := by
  induction frags with
  | nil =>
    intro i
    refine ⟨?_, ?_⟩
    · intro l h
      cases h
      rfl
    · intro h
      cases h
  | cons code rest ih =>
    intro i
    constructor
    · intro l h
      simp only [rowsSpec] at h
      cases hns : ns[i]? with
      | none => rw [hns] at h; cases h
      | some p =>
        rw [hns] at h
        cases hrec : rowsSpec rest ts ns (i + 1) with
        | none => rw [hrec] at h; simp at h
        | some l' =>
          rw [hrec] at h
          simp only [Option.map] at h
          cases h
          have hb := (ih (i + 1)).1 l' hrec
          simp only [buildRows]
          cases hts : ts[i]? with
          | none => simp [hns, hb, Except.map, strConcat]
          | some t => cases t <;> simp [hns, hb, Except.map, strConcat]
    · intro h
      simp only [rowsSpec] at h
      cases hns : ns[i]? with
      | none =>
        simp only [buildRows]
        cases hts : ts[i]? with
        | none => simp [hns]
        | some t => cases t <;> simp [hns]
      | some p =>
        rw [hns] at h
        cases hrec : rowsSpec rest ts ns (i + 1) with
        | some l' => rw [hrec] at h; simp at h
        | none =>
          have hb := (ih (i + 1)).2 hrec
          simp only [buildRows]
          cases hts : ts[i]? with
          | none => simp [hns, hb, Except.map]
          | some t => cases t <;> simp [hns, hb, Except.map]

/-- A highlighter returning a blob whose newline count (2) differs from the
newline count of the code it was given. -/
def hlMismatch : String → Option String := fun _ => some "a\nb\nc"

/-! ### Splitter scanning lemmas -/

/-- Inversion for `takeUntilGt`: a success decomposes the input at its
first `'>'`. -/
theorem takeUntilGt_eq (cs : List Char) : ∀ (mid r : List Char),
    takeUntilGt cs = some (mid, r) → cs = mid ++ '>' :: r := by
  induction cs with
  | nil =>
    intro mid r h
    cases h
  | cons c rest ih =>
    intro mid r h
    simp only [takeUntilGt] at h
    by_cases hc : c = '>'
    · rw [if_pos hc] at h
      cases h
      simp [hc]
    · rw [if_neg hc] at h
      cases hrec : takeUntilGt rest with
      | none => rw [hrec] at h; cases h
      | some pr =>
        obtain ⟨mid', r'⟩ := pr
        rw [hrec] at h
        cases h
        simpa using ih _ _ hrec

/-- Computation for `takeUntilGt` on a decomposed input: the characters
before the first `'>'` are gathered, the rest returned. -/
theorem takeUntilGt_append (a rest : List Char) (ha : '>' ∉ a) :
    takeUntilGt (a ++ '>' :: rest) = some (a, rest) := by
  induction a with
  | nil => simp [takeUntilGt]
  | cons c a' ih =>
    have hc : c ≠ '>' := fun h => ha (h ▸ List.mem_cons_self c a')
    simp only [List.cons_append, takeUntilGt, if_neg hc, List.append_eq,
      ih (fun h => ha (List.mem_cons_of_mem _ h))]

/-- A successful tag match decomposes the input as the tag text followed by
the rest, and the tag is non-empty. -/
theorem matchSpanTag_eq (cs t : List Char) (b : Bool) (r : List Char)
    (h : matchSpanTag cs = some (t, b, r)) :
    cs = t ++ r ∧ t ≠ [] := by
  unfold matchSpanTag at h
  split at h
  · rename_i r0
    cases hg : takeUntilGt r0 with
    | none => rw [hg] at h; cases h
    | some pr =>
      obtain ⟨mid, rest2⟩ := pr
      rw [hg] at h
      cases h
      have hr0 := takeUntilGt_eq r0 mid _ hg
      subst hr0
      refine ⟨by simp, by simp⟩
  · rename_i r0
    cases hg : takeUntilGt r0 with
    | none => rw [hg] at h; cases h
    | some pr =>
      obtain ⟨mid, rest2⟩ := pr
      rw [hg] at h
      cases h
      have hr0 := takeUntilGt_eq r0 mid _ hg
      subst hr0
      refine ⟨by simp, by simp⟩
  · cases h

/-- A successful tag match consumes at least one character. -/
theorem matchSpanTag_shrink (cs t : List Char) (b : Bool) (r : List Char)
    (h : matchSpanTag cs = some (t, b, r)) : r.length < cs.length := by
  obtain ⟨heq, hne⟩ := matchSpanTag_eq cs t b r h
  subst heq
  simp only [List.length_append]
  cases t with
  | nil => exact absurd rfl hne
  | cons x xs => simp

/-- A successfully matched input starts with `'<'`. -/
theorem matchSpanTag_head (cs t : List Char) (b : Bool) (r : List Char)
    (h : matchSpanTag cs = some (t, b, r)) : ∃ tail, cs = '<' :: tail := by
  unfold matchSpanTag at h
  split at h
  · exact ⟨_, rfl⟩
  · exact ⟨_, rfl⟩
  · cases h

/-- Definitional unfolding of one splitter step. -/
theorem splitHLF_succ (f : Nat) (c : Char) (rest cur : List Char)
    (stk : List (List Char)) :
    splitHLF (f + 1) (c :: rest) cur stk =
      if c = '\n' then
        (cur ++ closeTags stk.length) :: splitHLF f rest stk.flatten stk
      else if c = '<' then
        match matchSpanTag (c :: rest) with
        | some (tag, isClosing, rest2) =>
          if isClosing then splitHLF f rest2 (cur ++ tag) stk.dropLast
          else splitHLF f rest2 (cur ++ tag) (stk ++ [tag])
        | none => splitHLF f rest (cur ++ [c]) stk
      else splitHLF f rest (cur ++ [c]) stk := rfl

/-- The splitter loop does not depend on the fuel once the fuel covers the
input length. -/
theorem splitHLF_congr (f : Nat) : ∀ (g : Nat) (cs cur : List Char)
    (stk : List (List Char)), cs.length ≤ f → cs.length ≤ g →
    splitHLF f cs cur stk = splitHLF g cs cur stk := by
  induction f with
  | zero =>
    intro g cs cur stk hf hg
    cases cs with
    | nil => cases g <;> rfl
    | cons c rest => simp at hf
  | succ f ih =>
    intro g cs cur stk hf hg
    cases cs with
    | nil => cases g <;> rfl
    | cons c rest =>
      cases g with
      | zero => simp at hg
      | succ g' =>
        have hf' : rest.length ≤ f := by simp at hf; omega
        have hg' : rest.length ≤ g' := by simp at hg; omega
        rw [splitHLF_succ, splitHLF_succ]
        by_cases hc : c = '\n'
        · rw [if_pos hc, if_pos hc, ih g' rest stk.flatten stk hf' hg']
        · rw [if_neg hc, if_neg hc]
          by_cases hlt : c = '<'
          · rw [if_pos hlt, if_pos hlt]
            cases hm : matchSpanTag (c :: rest) with
            | none => exact ih g' rest (cur ++ [c]) stk hf' hg'
            | some tri =>
              obtain ⟨t, b, r2⟩ := tri
              have hr2 : r2.length ≤ rest.length := by
                have := matchSpanTag_shrink _ _ _ _ hm
                simp at this
                omega
              cases b
              · exact ih g' r2 (cur ++ t) (stk ++ [t]) (by omega) (by omega)
              · exact ih g' r2 (cur ++ t) stk.dropLast (by omega) (by omega)
          · rw [if_neg hlt, if_neg hlt]
            exact ih g' rest (cur ++ [c]) stk hf' hg'

/-- Step equation of the splitter: end of input. -/
theorem splitHL_nil (cur : List Char) (stk : List (List Char)) :
    splitHL [] cur stk = if cur.isEmpty then [] else [cur] := rfl

/-- Step equation of the splitter: a newline closes the open tags, pushes
the fragment, and reopens the stack on the next line. -/
theorem splitHL_newline (rest cur : List Char) (stk : List (List Char)) :
    splitHL ('\n' :: rest) cur stk =
      (cur ++ closeTags stk.length) :: splitHL rest stk.flatten stk := by
  show splitHLF (('\n' :: rest).length) ('\n' :: rest) cur stk = _
  rw [List.length_cons, splitHLF_succ, if_pos rfl]
  rfl

/-- Step equation of the splitter: an ordinary character is appended. -/
theorem splitHL_char (c : Char) (rest cur : List Char) (stk : List (List Char))
    (hn : c ≠ '\n') (hl : c ≠ '<') :
    splitHL (c :: rest) cur stk = splitHL rest (cur ++ [c]) stk := by
  show splitHLF ((c :: rest).length) (c :: rest) cur stk = _
  rw [List.length_cons, splitHLF_succ, if_neg hn, if_neg hl]
  rfl

/-- Step equation of the splitter: a `'<'` that does not begin a recognized
wrapper tag is a literal character. -/
theorem splitHL_nomatch (rest cur : List Char) (stk : List (List Char))
    (hm : matchSpanTag ('<' :: rest) = none) :
    splitHL ('<' :: rest) cur stk = splitHL rest (cur ++ ['<']) stk := by
  show splitHLF (('<' :: rest).length) ('<' :: rest) cur stk = _
  rw [List.length_cons, splitHLF_succ, if_neg (by decide : ¬ ('<' : Char) = '\n'),
    if_pos rfl, hm]
  rfl

/-- Step equation of the splitter: a matched wrapper tag is appended
verbatim and pushed onto / popped from the stack. -/
theorem splitHL_matched (cs cur : List Char) (stk : List (List Char))
    (t : List Char) (b : Bool) (r2 : List Char)
    (hm : matchSpanTag cs = some (t, b, r2)) :
    splitHL cs cur stk =
      if b then splitHL r2 (cur ++ t) stk.dropLast
      else splitHL r2 (cur ++ t) (stk ++ [t]) := by
  obtain ⟨tail, rfl⟩ := matchSpanTag_head cs t b r2 hm
  have hr2 : r2.length ≤ tail.length := by
    have := matchSpanTag_shrink _ _ _ _ hm
    simp at this
    omega
  show splitHLF (('<' :: tail).length) ('<' :: tail) cur stk = _
  rw [List.length_cons, splitHLF_succ, if_neg (by decide : ¬ ('<' : Char) = '\n'),
    if_pos rfl, hm]
  cases b
  · exact splitHLF_congr tail.length r2.length r2 (cur ++ t) (stk ++ [t]) hr2 le_rfl
  · exact splitHLF_congr tail.length r2.length r2 (cur ++ t) stk.dropLast hr2 le_rfl

/-- Definitional unfolding of one counting step. -/
theorem spanCountsF_succ (f : Nat) (c : Char) (rest : List Char) :
    spanCountsF (f + 1) (c :: rest) =
      if c = '<' then
        match matchSpanTag (c :: rest) with
        | some (_, isClosing, rest2) =>
          let p := spanCountsF f rest2
          if isClosing then (p.1, p.2 + 1) else (p.1 + 1, p.2)
        | none => spanCountsF f rest
      else spanCountsF f rest := rfl

/-- The counting scan does not depend on the fuel once the fuel covers the
input length. -/
theorem spanCountsF_congr (f : Nat) : ∀ (g : Nat) (cs : List Char),
    cs.length ≤ f → cs.length ≤ g → spanCountsF f cs = spanCountsF g cs := by
  induction f with
  | zero =>
    intro g cs hf hg
    cases cs with
    | nil => cases g <;> rfl
    | cons c rest => simp at hf
  | succ f ih =>
    intro g cs hf hg
    cases cs with
    | nil => cases g <;> rfl
    | cons c rest =>
      cases g with
      | zero => simp at hg
      | succ g' =>
        have hf' : rest.length ≤ f := by simp at hf; omega
        have hg' : rest.length ≤ g' := by simp at hg; omega
        rw [spanCountsF_succ, spanCountsF_succ]
        by_cases hlt : c = '<'
        · rw [if_pos hlt, if_pos hlt]
          cases hm : matchSpanTag (c :: rest) with
          | none => exact ih g' rest hf' hg'
          | some tri =>
            obtain ⟨t, b, r2⟩ := tri
            have hr2 : r2.length ≤ rest.length := by
              have := matchSpanTag_shrink _ _ _ _ hm
              simp at this
              omega
            show (let p := spanCountsF f r2
                  if b then (p.1, p.2 + 1) else (p.1 + 1, p.2)) =
              (let p := spanCountsF g' r2
               if b then (p.1, p.2 + 1) else (p.1 + 1, p.2))
            rw [ih g' r2 (by omega) (by omega)]
        · rw [if_neg hlt, if_neg hlt]
          exact ih g' rest hf' hg'

/-- Step equation of the counting scan: an ordinary character counts
nothing. -/
theorem spanCounts_char (c : Char) (rest : List Char) (hl : c ≠ '<') :
    spanCounts (c :: rest) = spanCounts rest := by
  show spanCountsF ((c :: rest).length) (c :: rest) = _
  rw [List.length_cons, spanCountsF_succ, if_neg hl]
  rfl

/-- Step equation of the counting scan: a matched tag increments its
side. -/
theorem spanCounts_matched (cs t : List Char) (b : Bool) (r2 : List Char)
    (hm : matchSpanTag cs = some (t, b, r2)) :
    spanCounts cs =
      if b then ((spanCounts r2).1, (spanCounts r2).2 + 1)
      else ((spanCounts r2).1 + 1, (spanCounts r2).2) := by
  obtain ⟨tail, rfl⟩ := matchSpanTag_head cs t b r2 hm
  have hr2 : r2.length ≤ tail.length := by
    have := matchSpanTag_shrink _ _ _ _ hm
    simp at this
    omega
  show spanCountsF (('<' :: tail).length) ('<' :: tail) = _
  rw [List.length_cons, spanCountsF_succ, if_pos rfl, hm]
  have hcg : spanCountsF tail.length r2 = spanCounts r2 :=
    spanCountsF_congr tail.length r2.length r2 hr2 le_rfl
  cases b <;> simp [hcg]

/-! ### A token grammar for well-formed highlighter output -/

/-- The text of an opening wrapper tag with the given attribute characters:
`<span` + attrs + `>`. -/
def openTagText (attrs : List Char) : List Char :=
  '<' :: 's' :: 'p' :: 'a' :: 'n' :: (attrs ++ ['>'])

/-- The text of the closing wrapper tag `</span>`. -/
def closeTagText : List Char := ['<', '/', 's', 'p', 'a', 'n', '>']

/-- One token of a highlighted blob: a plain character, an opening wrapper
tag, or the closing wrapper tag. -/
inductive HlTok where
  | ch : Char → HlTok
  | openT : List Char → HlTok
  | closeT : HlTok
deriving DecidableEq, Repr

/-- Token text. -/
def renderTok : HlTok → List Char
  | .ch c => [c]
  | .openT a => openTagText a
  | .closeT => closeTagText

/-- Text of a token sequence. -/
def renderToks (ts : List HlTok) : List Char :=
  (ts.map renderTok).flatten

/-- Well-formedness of a token: a plain character is not a raw `'<'`, and
an opening tag's attributes contain no `'>'`. -/
def tokWF : HlTok → Bool
  | .ch c => decide (c ≠ '<')
  | .openT a => decide ('>' ∉ a)
  | .closeT => true

/-- Proper nesting relative to a current open-tag depth: closing tags never
underflow and the depth is zero at the end. -/
def closeOK : Nat → List HlTok → Bool
  | d, [] => d == 0
  | d, .ch _ :: ts => closeOK d ts
  | d, .openT _ :: ts => closeOK (d + 1) ts
  | d, .closeT :: ts => decide (0 < d) && closeOK (d - 1) ts

/-- Number of opening tags in a token sequence. -/
def opensN : List HlTok → Nat
  | [] => 0
  | .openT _ :: ts => opensN ts + 1
  | _ :: ts => opensN ts

/-- Number of closing tags in a token sequence. -/
def closesN : List HlTok → Nat
  | [] => 0
  | .closeT :: ts => closesN ts + 1
  | _ :: ts => closesN ts

theorem renderToks_nil : renderToks [] = [] := rfl

theorem renderToks_cons (t : HlTok) (ts : List HlTok) :
    renderToks (t :: ts) = renderTok t ++ renderToks ts := by
  simp [renderToks]

theorem renderToks_append (ts us : List HlTok) :
    renderToks (ts ++ us) = renderToks ts ++ renderToks us := by
  simp [renderToks]

/-- The closing tags appended at a newline are the rendering of that many
closing tokens. -/
theorem closeTags_eq_renderToks (n : Nat) :
    closeTags n = renderToks (List.replicate n .closeT) := by
  induction n with
  | zero => rfl
  | succ n ih =>
    rw [List.replicate_succ, renderToks_cons, ← ih]
    rfl

/-- The reopened stack contents are the rendering of the corresponding
opening tokens. -/
theorem flatten_map_openTagText (l : List (List Char)) :
    (l.map openTagText).flatten = renderToks (l.map .openT) := by
  induction l with
  | nil => rfl
  | cons a l' ih =>
    rw [List.map_cons, List.map_cons, List.flatten_cons, renderToks_cons, ih]
    rfl

theorem opensN_append (ts us : List HlTok) :
    opensN (ts ++ us) = opensN ts + opensN us := by
  induction ts with
  | nil => simp [opensN]
  | cons t ts' ih => cases t <;> simp [opensN, ih, Nat.add_right_comm]

theorem closesN_append (ts us : List HlTok) :
    closesN (ts ++ us) = closesN ts + closesN us := by
  induction ts with
  | nil => simp [closesN]
  | cons t ts' ih => cases t <;> simp [closesN, ih, Nat.add_right_comm]

theorem opensN_map_openT (l : List (List Char)) :
    opensN (l.map .openT) = l.length := by
  induction l with
  | nil => rfl
  | cons a l' ih => simp [opensN, ih]

theorem closesN_map_openT (l : List (List Char)) :
    closesN (l.map .openT) = 0 := by
  induction l with
  | nil => rfl
  | cons a l' ih => simp [closesN, ih]

theorem opensN_replicate_closeT (n : Nat) :
    opensN (List.replicate n .closeT) = 0 := by
  induction n with
  | zero => rfl
  | succ n ih => simp [List.replicate_succ, opensN, ih]

theorem closesN_replicate_closeT (n : Nat) :
    closesN (List.replicate n .closeT) = n := by
  induction n with
  | zero => rfl
  | succ n ih => simp [List.replicate_succ, closesN, ih]

/-- The scanner recognizes a rendered opening tag at the head of the input
exactly as a single opening tag. -/
theorem matchSpanTag_openTag (a rest : List Char) (ha : '>' ∉ a) :
    matchSpanTag (openTagText a ++ rest) = some (openTagText a, false, rest) := by
  have hsh : openTagText a ++ rest =
      '<' :: 's' :: 'p' :: 'a' :: 'n' :: (a ++ '>' :: rest) := by
    simp [openTagText]
  rw [hsh]
  show (match takeUntilGt (a ++ '>' :: rest) with
    | some (mid, rest2) =>
      some ('<' :: 's' :: 'p' :: 'a' :: 'n' :: (mid ++ ['>']), false, rest2)
    | none => none) = some (openTagText a, false, rest)
  rw [takeUntilGt_append a rest ha]
  rfl

/-- The scanner recognizes the rendered closing tag at the head of the
input exactly as the closing tag. -/
theorem matchSpanTag_closeTag (rest : List Char) :
    matchSpanTag (closeTagText ++ rest) = some (closeTagText, true, rest) := rfl

/-- The counting scan of a rendered well-formed token sequence counts
exactly its opening and closing tokens. -/
theorem spanCounts_renderToks (ts : List HlTok) (hwf : ∀ t ∈ ts, tokWF t = true) :
    spanCounts (renderToks ts) = (opensN ts, closesN ts) := by
  induction ts with
  | nil => rfl
  | cons t ts' ih =>
    have hwft := hwf t (List.mem_cons_self _ _)
    have hwf' : ∀ u ∈ ts', tokWF u = true := fun u hu => hwf u (List.mem_cons_of_mem _ hu)
    cases t with
    | ch c =>
      have hc : c ≠ '<' := by simpa [tokWF] using hwft
      rw [renderToks_cons]
      show spanCounts (c :: renderToks ts') = _
      rw [spanCounts_char c _ hc, ih hwf']
      simp [opensN, closesN]
    | openT a =>
      have ha : '>' ∉ a := by simpa [tokWF] using hwft
      rw [renderToks_cons]
      show spanCounts (openTagText a ++ renderToks ts') = _
      rw [spanCounts_matched (openTagText a ++ renderToks ts') (openTagText a) false
        (renderToks ts') (matchSpanTag_openTag a (renderToks ts') ha), ih hwf']
      simp [opensN, closesN]
    | closeT =>
      rw [renderToks_cons]
      show spanCounts (closeTagText ++ renderToks ts') = _
      rw [spanCounts_matched (closeTagText ++ renderToks ts') closeTagText true
        (renderToks ts') (matchSpanTag_closeTag (renderToks ts')), ih hwf']
      simp [opensN, closesN]

/-- Main balance invariant of the splitter: scanning the rendering of a
well-formed, properly nested token sequence — with a current line that is
the rendering of tokens whose net open count equals the stack depth, and a
stack of rendered open tags — every produced fragment has equal opening and
closing tag counts. -/
theorem splitHL_tokens (ts : List HlTok) :
    ∀ (ctoks : List HlTok) (attrsStk : List (List Char)),
    (∀ t ∈ ts, tokWF t = true) →
    (∀ t ∈ ctoks, tokWF t = true) →
    (∀ a ∈ attrsStk, '>' ∉ a) →
    closeOK attrsStk.length ts = true →
    opensN ctoks = closesN ctoks + attrsStk.length →
    ∀ f ∈ splitHL (renderToks ts) (renderToks ctoks) (attrsStk.map openTagText),
      (spanCounts f).1 = (spanCounts f).2 := by
  induction ts with
  | nil =>
    intro ctoks attrsStk hwf hcwf hstk hok hinv f hf
    have hstk0 : attrsStk.length = 0 := by simpa [closeOK] using hok
    rw [renderToks_nil, splitHL_nil] at hf
    split at hf
    · cases hf
    · rcases List.mem_singleton.mp hf with rfl
      rw [spanCounts_renderToks ctoks hcwf]
      omega
  | cons t ts' ih =>
    intro ctoks attrsStk hwf hcwf hstk hok hinv f hf
    have hwft := hwf t (List.mem_cons_self _ _)
    have hwf' : ∀ u ∈ ts', tokWF u = true := fun u hu =>
      hwf u (List.mem_cons_of_mem _ hu)
    rw [renderToks_cons] at hf
    cases t with
    | ch c =>
      by_cases hc : c = '\n'
      · subst hc
        simp only [renderTok, List.singleton_append] at hf
        rw [splitHL_newline] at hf
        rcases List.mem_cons.mp hf with rfl | hf'
        · have hwfapp : ∀ u ∈ ctoks ++ List.replicate attrsStk.length HlTok.closeT,
              tokWF u = true := by
            intro u hu
            rcases List.mem_append.mp hu with hu' | hu'
            · exact hcwf u hu'
            · rw [List.eq_of_mem_replicate hu']
              rfl
          rw [List.length_map, closeTags_eq_renderToks, ← renderToks_append,
            spanCounts_renderToks _ hwfapp, opensN_append, closesN_append,
            opensN_replicate_closeT, closesN_replicate_closeT]
          omega
        · rw [flatten_map_openTagText] at hf'
          refine ih (attrsStk.map .openT) attrsStk hwf' ?_ hstk ?_ ?_ f hf'
          · intro u hu
            obtain ⟨a, ha, rfl⟩ := List.mem_map.mp hu
            simpa [tokWF] using hstk a ha
          · simpa [closeOK] using hok
          · rw [opensN_map_openT, closesN_map_openT]
            omega
      · have hlt : c ≠ '<' := by simpa [tokWF] using hwft
        simp only [renderTok, List.singleton_append] at hf
        rw [splitHL_char c _ _ _ hc hlt] at hf
        refine ih (ctoks ++ [.ch c]) attrsStk hwf' ?_ hstk ?_ ?_ f ?_
        · intro u hu
          rcases List.mem_append.mp hu with hu' | hu'
          · exact hcwf u hu'
          · rw [List.mem_singleton.mp hu']
            exact hwft
        · simpa [closeOK] using hok
        · rw [opensN_append, closesN_append]
          simp only [opensN, closesN]
          omega
        · rw [renderToks_append]
          simpa [renderToks_cons, renderToks_nil, renderTok] using hf
    | openT a =>
      have ha : '>' ∉ a := by simpa [tokWF] using hwft
      simp only [renderTok] at hf
      rw [splitHL_matched _ _ _ (openTagText a) false (renderToks ts')
        (matchSpanTag_openTag a (renderToks ts') ha)] at hf
      rw [if_neg (by decide : ¬ (false = true))] at hf
      refine ih (ctoks ++ [.openT a]) (attrsStk ++ [a]) hwf' ?_ ?_ ?_ ?_ f ?_
      · intro u hu
        rcases List.mem_append.mp hu with hu' | hu'
        · exact hcwf u hu'
        · rw [List.mem_singleton.mp hu']
          exact hwft
      · intro x hx
        rcases List.mem_append.mp hx with hx' | hx'
        · exact hstk x hx'
        · rw [List.mem_singleton.mp hx']
          exact ha
      · simpa [closeOK, List.length_append] using hok
      · rw [opensN_append, closesN_append]
        simp only [opensN, closesN, List.length_append, List.length_singleton]
        omega
      · rw [renderToks_append, List.map_append]
        simpa [renderToks_cons, renderToks_nil, renderTok] using hf
    | closeT =>
      have hok' : 0 < attrsStk.length ∧ closeOK (attrsStk.length - 1) ts' = true := by
        simpa [closeOK] using hok
      simp only [renderTok] at hf
      rw [splitHL_matched _ _ _ closeTagText true (renderToks ts')
        (matchSpanTag_closeTag (renderToks ts'))] at hf
      rw [if_pos rfl] at hf
      refine ih (ctoks ++ [.closeT]) attrsStk.dropLast hwf' ?_ ?_ ?_ ?_ f ?_
      · intro u hu
        rcases List.mem_append.mp hu with hu' | hu'
        · exact hcwf u hu'
        · rw [List.mem_singleton.mp hu']
          rfl
      · intro x hx
        exact hstk x (List.dropLast_subset _ hx)
      · rw [List.length_dropLast]
        exact hok'.2
      · rw [opensN_append, closesN_append, List.length_dropLast]
        simp only [opensN, closesN]
        have := hok'.1
        omega
      · rw [renderToks_append, List.map_dropLast]
        simpa [renderToks_cons, renderToks_nil, renderTok] using hf

/-! ### Lemmas about comment grouping -/

/-- Looking a key up after `insertComment`: the inserted comment is appended
to that key's group (created as a singleton when absent); other keys are
untouched. -/
theorem lookup_insertComment (acc : List (String × List Comment)) (p q : String)
    (c : Comment) :
    List.lookup p (insertComment acc q c) =
      if q = p then some ((List.lookup p acc).getD [] ++ [c])
      else List.lookup p acc := by
  induction acc with
  | nil =>
    simp only [insertComment, List.lookup]
    by_cases h : q = p
    · subst h
      simp
    · rw [show (p == q) = false from beq_eq_false_iff_ne.mpr (fun hh => h hh.symm)]
      simp [h]
  | cons pr rest ih =>
    obtain ⟨k, g⟩ := pr
    simp only [insertComment]
    by_cases hkq : k = q
    · subst hkq
      simp only [if_pos rfl, List.lookup]
      by_cases hkp : k = p
      · subst hkp
        simp
      · rw [show (p == k) = false from beq_eq_false_iff_ne.mpr (fun hh => hkp hh.symm)]
        simp [hkp]
    · rw [if_neg hkq]
      simp only [List.lookup]
      by_cases hpk : p = k
      · subst hpk
        have hqp : ¬ q = p := fun h => hkq h.symm
        simp [hqp]
      · rw [show (p == k) = false from beq_eq_false_iff_ne.mpr hpk]
        exact ih

/-- The grouping `reduce`: the group of `p` merges what the accumulator
already holds with the path-`p` comments of the remaining input. -/
theorem groupPhaseLog_fst_lookup (cs : List Comment)
    (acc : List (String × List Comment)) (log : List Comment) (p : String) :
    List.lookup p (groupPhaseLog cs acc log).1 =
      match List.lookup p acc with
      | some g => some (g ++ cs.filter (fun c => truthyPath c == some p))
      | none =>
        if cs.filter (fun c => truthyPath c == some p) = [] then none
        else some (cs.filter (fun c => truthyPath c == some p)) := by
  induction cs generalizing acc log with
  | nil =>
    simp only [groupPhaseLog, List.filter_nil]
    cases List.lookup p acc <;> simp
  | cons c rest ih =>
    simp only [groupPhaseLog]
    cases htp : truthyPath c with
    | none =>
      rw [ih acc (log ++ [c])]
      have : (truthyPath c == some p) = false := by
        rw [htp]
        rfl
      simp [List.filter_cons, this]
    | some q =>
      rw [ih (insertComment acc q c) log]
      rw [lookup_insertComment acc p q c]
      by_cases hqp : q = p
      · subst hqp
        have hkeep : (truthyPath c == some q) = true := by
          rw [htp]
          exact beq_self_eq_true _
        rw [List.filter_cons]
        simp only [hkeep, if_pos]
        cases hacc : List.lookup q acc with
        | some g => simp [List.append_assoc]
        | none => simp
      · have hdrop : (truthyPath c == some p) = false := by
          rw [htp]
          simp [hqp]
        rw [List.filter_cons]
        simp only [hdrop]
        simp only [if_neg hqp]
        rfl

/-- The warn log collects exactly the comments with a falsy path, in
order. -/
theorem groupPhaseLog_snd (cs : List Comment) (acc : List (String × List Comment))
    (log : List Comment) :
    (groupPhaseLog cs acc log).2 = log ++ cs.filter (fun c => truthyPath c == none) := by
  induction cs generalizing acc log with
  | nil => simp [groupPhaseLog]
  | cons c rest ih =>
    simp only [groupPhaseLog]
    cases htp : truthyPath c with
    | none =>
      rw [ih]
      have : (truthyPath c == none) = true := by rw [htp]; rfl
      simp [List.filter_cons, this]
    | some q =>
      rw [ih]
      have : (truthyPath c == none) = false := by rw [htp]; rfl
      simp [List.filter_cons, this]

/-- Lookup commutes with per-group sorting. -/
theorem lookup_map_sort (l : List (String × List Comment)) (p : String) :
    List.lookup p (l.map (fun pr => (pr.1, sortComments pr.2))) =
      (List.lookup p l).map sortComments := by
  induction l with
  | nil => rfl
  | cons pr rest ih =>
    obtain ⟨k, g⟩ := pr
    simp only [List.map_cons, List.lookup]
    cases h : p == k <;> simp [ih]

/-- `insertSorted` inserts: the result is a permutation of consing. -/
theorem insertSorted_perm (c : Comment) (l : List Comment) :
    (insertSorted c l).Perm (c :: l) := by
  induction l with
  | nil => simp [insertSorted]
  | cons d ds ih =>
    simp only [insertSorted]
    split
    · exact List.Perm.refl _
    · exact (List.Perm.cons d ih).trans (List.Perm.swap c d ds)

/-- `sortComments` permutes its input. -/
theorem sortComments_perm (l : List Comment) : (sortComments l).Perm l := by
  induction l with
  | nil => exact List.Perm.refl _
  | cons c cs ih =>
    exact (insertSorted_perm c (sortComments cs)).trans (List.Perm.cons c ih)

/-- Inserting into a sorted list keeps it sorted. -/
theorem insertSorted_pairwise (c : Comment) (l : List Comment)
    (h : l.Pairwise (fun a b => getCommentLineNumber a ≤ getCommentLineNumber b)) :
    (insertSorted c l).Pairwise
      (fun a b => getCommentLineNumber a ≤ getCommentLineNumber b) := by
  induction l with
  | nil => simp [insertSorted]
  | cons d ds ih =>
    rw [List.pairwise_cons] at h
    obtain ⟨hd, hds⟩ := h
    simp only [insertSorted]
    split
    · next hle =>
      rw [List.pairwise_cons]
      refine ⟨?_, List.pairwise_cons.mpr ⟨hd, hds⟩⟩
      intro e he
      rcases List.mem_cons.mp he with rfl | he'
      · exact hle
      · exact le_trans hle (hd e he')
    · next hgt =>
      rw [List.pairwise_cons]
      refine ⟨?_, ih hds⟩
      intro e he
      rcases List.mem_cons.mp ((insertSorted_perm c ds).mem_iff.mp he) with rfl | he'
      · exact le_of_lt (lt_of_not_le hgt)
      · exact hd e he'

/-- Each group is sorted ascending by the effective line number. -/
theorem sortComments_pairwise (l : List Comment) :
    (sortComments l).Pairwise
      (fun a b => getCommentLineNumber a ≤ getCommentLineNumber b) := by
  induction l with
  | nil => simp [sortComments]
  | cons c cs ih => exact insertSorted_pairwise c (sortComments cs) ih

/-- Filtering an equal-key class through `insertSorted` appends the new
comment at the front of its class exactly when its key matches. -/
theorem filter_insertSorted (c : Comment) (l : List Comment) (k : Int) :
    (insertSorted c l).filter (fun d => getCommentLineNumber d == k) =
      if getCommentLineNumber c == k then
        c :: l.filter (fun d => getCommentLineNumber d == k)
      else l.filter (fun d => getCommentLineNumber d == k) := by
  induction l with
  | nil =>
    simp only [insertSorted]
    cases h : (getCommentLineNumber c == k) <;> simp [List.filter_cons, h]
  | cons d ds ih =>
    simp only [insertSorted]
    split
    · next hle =>
      cases h : (getCommentLineNumber c == k) <;> simp [List.filter_cons, h]
    · next hgt =>
      have hdc : getCommentLineNumber d < getCommentLineNumber c :=
        lt_of_not_le hgt
      rw [List.filter_cons, ih]
      cases hck : (getCommentLineNumber c == k)
      · simp [List.filter_cons]
      · have hdk : (getCommentLineNumber d == k) = false := by
          have : getCommentLineNumber c = k := by simpa using hck
          rw [beq_eq_false_iff_ne]
          omega
        rw [List.filter_cons]
        simp [hdk]

/-- Sorting is stable: each equal-key class keeps its input order. -/
theorem filter_sortComments (l : List Comment) (k : Int) :
    (sortComments l).filter (fun d => getCommentLineNumber d == k) =
      l.filter (fun d => getCommentLineNumber d == k) := by
  induction l with
  | nil => rfl
  | cons c cs ih =>
    simp only [sortComments]
    rw [filter_insertSorted]
    cases h : (getCommentLineNumber c == k) <;> simp [List.filter_cons, h, ih]

/-- Every group the reduce builds is non-empty. -/
theorem groupPhaseLog_ne_nil (cs : List Comment) (acc : List (String × List Comment))
    (log : List Comment) (hacc : ∀ pr ∈ acc, pr.2 ≠ []) :
    ∀ pr ∈ (groupPhaseLog cs acc log).1, pr.2 ≠ [] := by
  induction cs generalizing acc log with
  | nil => exact hacc
  | cons c rest ih =>
    simp only [groupPhaseLog]
    cases htp : truthyPath c with
    | none => exact ih acc (log ++ [c]) hacc
    | some q =>
      refine ih (insertComment acc q c) log ?_
      clear ih htp
      induction acc with
      | nil =>
        intro pr hpr
        simp only [insertComment, List.mem_singleton] at hpr
        subst hpr
        simp
      | cons pr0 rest0 ih0 =>
        obtain ⟨k, g⟩ := pr0
        intro pr hpr
        simp only [insertComment] at hpr
        split at hpr
        · rcases List.mem_cons.mp hpr with rfl | hpr'
          · simp
          · exact hacc pr (List.mem_cons_of_mem _ hpr')
        · rcases List.mem_cons.mp hpr with rfl | hpr'
          · exact hacc (k, g) (List.mem_cons_self _ _)
          · exact ih0 (fun x hx => hacc x (List.mem_cons_of_mem _ hx)) pr hpr'

/-- The group of `p` in `groupByFile`'s result: the path-`p` comments of
the input, sorted; absent exactly when there are none. -/
theorem lookup_groupByFile (cs : List Comment) (p : String) :
    List.lookup p (groupByFile cs) =
      (if cs.filter (fun c => truthyPath c == some p) = [] then none
       else some (cs.filter (fun c => truthyPath c == some p))).map sortComments := by
  simp only [groupByFile]
  rw [lookup_map_sort, groupPhaseLog_fst_lookup]
  rfl

/-! ### Claims -/

/-- C1, counterexample.  The patch consisting of one space classifies to one
context line (one non-header physical line), yet the fragments array is
empty — `splitHighlightedHtml` of the highlighted empty code block (`""`,
both for the identity highlighter used here and for `hljs.highlightAuto`,
whose value on `""` is `""`) has no fragments, because the final empty
`currentLine` is not pushed — so the fragment array is shorter than the
other two and the rendered table has zero rows for one classified line. -/
theorem C1_counterexample :
    (classifyPatch " ").lineTypes.length = 1 ∧
    (classifyPatch " ").lineNumbers.length = 1 ∧
    (fragmentsOf hlId " ").length = 0 ∧
    formatDiffForTable hlId " " = .ok "<table class=\"diff-table\"></table>" := by
  decide

/-- C1, amended: the classifier's arrays `lineTypes` and `lineNumbers`
always have the same length as `codeLines` (one entry per non-header,
non-file-header physical line), and a successful render is exactly the
concatenation of the specified row list — the zip of types, numbers and
fragments — which has exactly one row per *fragment*; but the fragments
array can be shorter than the classifier arrays (the splitter drops a
trailing empty fragment), in which case trailing classified lines get no
row — for the one-space patch with the identity highlighter, one
classified line yields zero fragments and zero rows. -/
theorem C1_alignment_amended :
    (∀ (lines : List String) (o n : Nat),
      (classify lines o n).lineTypes.length = (classify lines o n).codeLines.length ∧
      (classify lines o n).lineNumbers.length = (classify lines o n).codeLines.length) ∧
    (∀ (frags : List String) (ts : List LineType) (ns : List NumPair) (l : List String),
      rowsSpec frags ts ns 0 = some l →
      buildRows frags ts ns 0 = .ok (strConcat l) ∧ l.length = frags.length) ∧
    ((classifyPatch " ").codeLines.length = 1 ∧ (fragmentsOf hlId " ").length = 0) := by
  refine ⟨classify_lengths, ?_, by decide⟩
  intro frags ts ns l h
  exact ⟨(buildRows_eq_rowsSpec frags ts ns 0).1 l h, rowsSpec_length frags ts ns 0 l h⟩

/-- C1, witness: on a concrete two-fragment input the table pass outputs
precisely the concatenation of the two specified rows, one per fragment. -/
theorem C1_witness :
    buildRows ["x", "y"] [.add, .context] [⟨none, some 1⟩, ⟨some 2, some 3⟩] 0 =
      .ok (strConcat [addRow ⟨none, some 1⟩ "x", contextRow ⟨some 2, some 3⟩ "y"]) ∧
    ([addRow ⟨none, some 1⟩ "x", contextRow ⟨some 2, some 3⟩ "y"] : List String).length =
      (["x", "y"] : List String).length :=
  C1_alignment_amended.2.1 ["x", "y"] [.add, .context]
    [⟨none, some 1⟩, ⟨some 2, some 3⟩]
    [addRow ⟨none, some 1⟩ "x", contextRow ⟨some 2, some 3⟩ "y"] (by decide)

/-- C2, counterexample.  With a block highlighter whose output has two
newlines for a one-line code block (newline-count mismatch), the renderer
does not discard the blob or fall back to per-line highlighting: it splits
the blob into three fragments for one classified line, and table assembly
then throws a `TypeError` that propagates to the caller — contradicting
both the claimed fallback and the claim that the violation is never
surfaced as an error. -/
theorem C2_counterexample :
    (classifyPatch "+x").codeLines.length = 1 ∧
    (fragmentsOf hlMismatch "+x").length = 3 ∧
    formatDiffForTable hlMismatch "+x" = .error "TypeError" := by
  decide

/-- C2, amended: there is no newline-count check and no per-line
highlighting fallback.  The split fragments are used as they are: when
there are at most as many fragments as classified lines the table renders
(extra lines silently get no row), and when there are more fragments than
classified lines the table pass throws a `TypeError` which propagates to
the caller. -/
theorem C2_no_fallback_amended (hl : String → Option String) (patch : String)
    (hne : patch ≠ "") :
    ((fragmentsOf hl patch).length ≤ (classifyPatch patch).lineTypes.length →
      ∃ s, formatDiffForTable hl patch = .ok s) ∧
    ((classifyPatch patch).lineTypes.length < (fragmentsOf hl patch).length →
      formatDiffForTable hl patch = .error "TypeError") := by
  have hlen : (classifyPatch patch).lineTypes.length =
      (classifyPatch patch).lineNumbers.length := by
    have h := classify_lengths (splitLines patch) 0 0
    simp only [classifyPatch]
    omega
  constructor
  · intro hle
    obtain ⟨s, hs⟩ := buildRows_ok (fragmentsOf hl patch) (classifyPatch patch).lineTypes
      (classifyPatch patch).lineNumbers 0 hlen (by omega)
    refine ⟨"<table class=\"diff-table\">" ++ s ++ "</table>", ?_⟩
    simp [formatDiffForTable, hne, hs, Except.map]
  · intro hgt
    rcases hfr : fragmentsOf hl patch with _ | ⟨f, rest⟩
    · rw [hfr] at hgt
      simp at hgt
    · have herr := buildRows_err f rest (classifyPatch patch).lineTypes
        (classifyPatch patch).lineNumbers 0 hlen (by rw [hfr] at hgt; omega)
      simp [formatDiffForTable, hne, hfr, herr, Except.map]

/-- C2, witness: for the identity highlighter on a one-line patch the
fragment count does not exceed the line count and rendering succeeds. -/
theorem C2_witness :
    ∃ s, formatDiffForTable hlId "+x" = .ok s :=
  (C2_no_fallback_amended hlId "+x" (by decide)).1 (by decide)

/-- C4, counterexample.  A patch whose only content is file-header lines
classifies to zero code lines, and the whitespace-only patch `" "` is
truthy, so neither short-circuits to the placeholder: both render an empty
`<table>` element, not the `no-diff` placeholder the claim requires. -/
theorem C4_counterexample :
    formatDiffForTable hlId "+++ a\n--- b" = .ok "<table class=\"diff-table\"></table>" ∧
    formatDiffForTable hlId " " = .ok "<table class=\"diff-table\"></table>" ∧
    "<table class=\"diff-table\"></table>" ≠ noDiffPlaceholder := by
  decide

/-- C4, amended: only the empty-string patch (the only falsy string) short-
circuits to the fixed `no-diff` placeholder without running the pipeline;
a non-empty patch that classifies to zero code lines — for example one
whose only content is file-header lines — renders an empty table element
with zero rows, not the placeholder.  Whitespace-only patches do not
short-circuit either: they run the pipeline — the one-space patch, whose
single code line is empty, renders the empty table, while other
whitespace-only patches such as `"\t"` render a context row. -/
theorem C4_empty_patch_amended :
    (∀ hl : String → Option String, formatDiffForTable hl "" = .ok noDiffPlaceholder) ∧
    (∀ (hl : String → Option String) (patch : String), patch ≠ "" →
      (classifyPatch patch).codeLines = [] →
      formatDiffForTable hl patch = .ok "<table class=\"diff-table\"></table>") ∧
    formatDiffForTable hlId " " = .ok "<table class=\"diff-table\"></table>" ∧
    formatDiffForTable hlId "\t" =
      .ok ("<table class=\"diff-table\">" ++ contextRow ⟨none, none⟩ "\t" ++ "</table>") := by
  refine ⟨fun hl => rfl, ?_, by decide, by decide⟩
  intro hl patch hne hnil
  have hfr : fragmentsOf hl patch = [] := by
    simp [fragmentsOf, hnil]
  simp [formatDiffForTable, hne, hfr, buildRows, Except.map]

/-- C4, witness: the file-headers-only patch `"+++ a\n--- b"` classifies to
zero code lines and renders the empty table. -/
theorem C4_witness :
    formatDiffForTable hlId "+++ a\n--- b" = .ok "<table class=\"diff-table\"></table>" :=
  C4_empty_patch_amended.2.1 hlId "+++ a\n--- b" (by decide) (by decide)

/-- C6, confirmed: a line that begins with `@@` but does not match the
hunk-header regex leaves the classifier state (both counters) unchanged and
emits nothing — the classification of the remaining lines, and hence every
subsequent row, is exactly as if the malformed header line were absent. -/
theorem C6_malformed_hunk_header (line : String) (rest : List String) (o n : Nat)
    (h1 : jsStartsWith line "@@" = true) (h2 : parseHunkHeader line = none) :
    classify (line :: rest) o n = classify rest o n := by
  simp [classify, h1, h2]

/-- C6, witness: `"@@ garbage @@"` starts with `@@`, fails the regex, and a
following context line is classified with the previously active counters
(3, 4). -/
theorem C6_witness :
    jsStartsWith "@@ garbage @@" "@@" = true ∧
    parseHunkHeader "@@ garbage @@" = none ∧
    classify ["@@ garbage @@", " ctx"] 3 4 = classify [" ctx"] 3 4 ∧
    (classify ["@@ garbage @@", " ctx"] 3 4).lineNumbers = [⟨some 3, some 4⟩] :=
  ⟨by decide, by decide,
    C6_malformed_hunk_header "@@ garbage @@" [" ctx"] 3 4 (by decide) (by decide),
    by decide⟩

/-- C5, counterexample.  An added line before any hunk header is numbered
with the uninitialized counter 0, and the add row interpolates the number
verbatim: the cell renders `0`, not the empty string the claim requires for
a counter never initialized by a hunk header. -/
theorem C5_counterexample :
    (classifyPatch "+x").lineTypes = [.add] ∧
    (classifyPatch "+x").lineNumbers = [⟨none, some 0⟩] ∧
    renderNum (some 0) = "0" ∧
    renderNum (some 0) ≠ "" ∧
    formatDiffForTable hlId "+x" =
      .ok ("<table class=\"diff-table\">" ++ addRow ⟨none, some 0⟩ "x" ++ "</table>") := by
  decide

/-- C5, amended: number cells hold either an absent value rendered as the
empty string or a counter value rendered verbatim in decimal (never `NaN`:
counters are integers).  Added rows have an absent old number and always a
present new number (the live counter, which is `0` before any hunk header);
removed rows symmetrically; context rows render a never-initialized (zero)
counter as an absent value, so a context cell never shows `0`. -/
theorem C5_line_numbers_amended :
    (∀ (lines : List String) (o n : Nat),
      ∀ tp ∈ (classify lines o n).lineTypes.zip (classify lines o n).lineNumbers,
        (tp.1 = .add → tp.2.old = none ∧ ∃ k, tp.2.new = some k) ∧
        (tp.1 = .remove → tp.2.new = none ∧ ∃ k, tp.2.old = some k) ∧
        (tp.1 = .context → tp.2.old ≠ some 0 ∧ tp.2.new ≠ some 0)) ∧
    renderNum none = "" ∧
    (∀ k : Nat, renderNum (some k) = toString k) := by
  refine ⟨?_, rfl, fun k => rfl⟩
  intro lines
  induction lines with
  | nil =>
    intro o n tp htp
    simp [classify] at htp
  | cons line rest ih =>
    intro o n tp htp
    simp only [classify] at htp
    split at htp
    · split at htp
      · exact ih _ _ tp htp
      · exact ih _ _ tp htp
    · split at htp
      · exact ih _ _ tp htp
      · split at htp
        · rw [List.zip_cons_cons] at htp
          rcases List.mem_cons.mp htp with h | h
          · subst h
            refine ⟨fun _ => ⟨rfl, n, rfl⟩, ?_, ?_⟩ <;>
              (intro hc; simp at hc)
          · exact ih _ _ tp h
        · split at htp
          · rw [List.zip_cons_cons] at htp
            rcases List.mem_cons.mp htp with h | h
            · subst h
              refine ⟨?_, fun _ => ⟨rfl, o, rfl⟩, ?_⟩ <;>
                (intro hc; simp at hc)
            · exact ih _ _ tp h
          · rw [List.zip_cons_cons] at htp
            rcases List.mem_cons.mp htp with h | h
            · subst h
              refine ⟨?_, ?_, fun _ => ⟨?_, ?_⟩⟩
              · intro hc; simp at hc
              · intro hc; simp at hc
              · by_cases ho : o = 0 <;> simp [ho]
              · by_cases hn : n = 0 <;> simp [hn]
            · exact ih _ _ tp h

/-- C5, witness: the added line of patch `"+x"` (before any hunk header)
has an absent old number and a present new number. -/
theorem C5_witness :
    (LineType.add, (⟨none, some 0⟩ : NumPair)).2.old = none ∧
    ∃ k, (LineType.add, (⟨none, some 0⟩ : NumPair)).2.new = some k :=
  (C5_line_numbers_amended.1 ["+x"] 0 0 (.add, ⟨none, some 0⟩) (by decide)).1 rfl

/-- C8, confirmed: when the block highlighter throws, `formatDiffForTable`
catches it and substitutes the original code lines HTML-escaped, one
fragment per code line, and the render completes without the error
reaching the caller. -/
theorem C8_highlighter_failure (hl : String → Option String) (patch : String)
    (hthrow : hl (String.intercalate "\n" (classifyPatch patch).codeLines) = none) :
    fragmentsOf hl patch = (classifyPatch patch).codeLines.map escapeHtml ∧
    (fragmentsOf hl patch).length = (classifyPatch patch).codeLines.length ∧
    ∃ s, formatDiffForTable hl patch = .ok s := by
  have hfr : fragmentsOf hl patch = (classifyPatch patch).codeLines.map escapeHtml := by
    simp only [fragmentsOf]
    split
    · rw [hthrow]
    · next hz =>
      have hnil : (classifyPatch patch).codeLines = [] := by
        rcases h : (classifyPatch patch).codeLines with _ | ⟨a, l⟩
        · rfl
        · rw [h] at hz
          simp at hz
      rw [hnil]
      rfl
  refine ⟨hfr, by rw [hfr]; simp, ?_⟩
  by_cases hne : patch = ""
  · exact ⟨noDiffPlaceholder, by simp [formatDiffForTable, hne]⟩
  · have hlen : (classifyPatch patch).lineTypes.length =
        (classifyPatch patch).lineNumbers.length := by
      have h := classify_lengths (splitLines patch) 0 0
      simp only [classifyPatch]
      omega
    have hfl : (fragmentsOf hl patch).length ≤ (classifyPatch patch).lineTypes.length := by
      rw [hfr]
      have h := classify_lengths (splitLines patch) 0 0
      simp only [classifyPatch]
      simp only [List.length_map]
      omega
    obtain ⟨s, hs⟩ := buildRows_ok (fragmentsOf hl patch) (classifyPatch patch).lineTypes
      (classifyPatch patch).lineNumbers 0 hlen (by omega)
    exact ⟨"<table class=\"diff-table\">" ++ s ++ "</table>",
      by simp [formatDiffForTable, hne, hs, Except.map]⟩

/-- C8, witness: a throwing highlighter on patch `"+a<b"` yields the single
escaped fragment `"a&lt;b"` and a successful render. -/
theorem C8_witness :
    fragmentsOf hlThrow "+a<b" = ["a&lt;b"] ∧
    ∃ s, formatDiffForTable hlThrow "+a<b" = .ok s := by
  have h := C8_highlighter_failure hlThrow "+a<b" rfl
  refine ⟨?_, h.2.2⟩
  rw [h.1]
  decide

/-- C3, counterexample.  For the blob `"<span>x"` the splitter pushes the
final `currentLine` at end of input without closing the currently open tag:
the only fragment contains one opening and zero closing wrapper tags, so it
is not balanced, and the open tag was not closed as the claim states. -/
theorem C3_counterexample :
    splitHighlightedHtml "<span>x" = ["<span>x"] ∧
    (spanCounts "<span>x".toList).1 = 1 ∧
    (spanCounts "<span>x".toList).2 = 0 := by
  decide

/-- C3, amended: at end of input the final fragment is pushed when
`currentLine` is non-empty, but the currently open tags are NOT closed
there (only newlines close them), so a blob ending inside an open tag
yields an unbalanced final fragment.  Balance holds for every fragment
whenever the blob is a well-formed properly-nested tag stream: plain
characters other than raw `'<'`, opening `<span…>` tags with no `'>'` in
their attributes, and matching `</span>` tags, with no close before its
open and all opens closed by the end of the blob. -/
theorem C3_balance_amended (ts : List HlTok)
    (hwf : ∀ t ∈ ts, tokWF t = true) (hok : closeOK 0 ts = true) :
    ∀ f ∈ splitHighlightedHtml (List.asString (renderToks ts)),
      (spanCounts f.toList).1 = (spanCounts f.toList).2 := by
  intro f hf
  simp only [splitHighlightedHtml] at hf
  rw [List.toList_asString] at hf
  obtain ⟨g, hg, rfl⟩ := List.mem_map.mp hf
  rw [List.toList_asString]
  have h := splitHL_tokens ts [] [] hwf (by intro t ht; cases ht)
    (by intro a ha; cases ha) (by simpa using hok) (by simp [opensN, closesN])
  exact h g (by simpa [renderToks_nil] using hg)

/-- C3, witness: the blob `"<span class=\"k\">x\ny</span>"` is a
well-formed nested tag stream, and its first fragment
`"<span class=\"k\">x</span>"` is balanced. -/
theorem C3_witness :
    (spanCounts "<span class=\"k\">x</span>".toList).1 =
      (spanCounts "<span class=\"k\">x</span>".toList).2 := by
  have h := C3_balance_amended
    [.openT " class=\"k\"".toList, .ch 'x', .ch '\n', .ch 'y', .closeT]
    (by decide) (by decide)
  exact h "<span class=\"k\">x</span>" (by decide)

/-- The example comment list of the C7 claim. -/
def c7ex : List Comment :=
  [⟨1, some "a", some 5, none⟩, ⟨2, some "a", some 5, none⟩, ⟨3, some "a", some 2, none⟩]

/-- C7, confirmed: every group `groupByFile` returns is sorted ascending by
the key `line` if truthy, else `original_line` if truthy, else 0, and the
sort is stable — each equal-key class appears in input order (it equals the
input filtered to that path and key).  On the claim's example the group
`"a"` is ordered `[3, 1, 2]`. -/
theorem C7_group_sort_stable (cs : List Comment) (p : String) (g : List Comment)
    (h : List.lookup p (groupByFile cs) = some g) :
    g.Pairwise (fun a b => getCommentLineNumber a ≤ getCommentLineNumber b) ∧
    (∀ k : Int, g.filter (fun d => getCommentLineNumber d == k) =
      cs.filter (fun c => (getCommentLineNumber c == k) && (truthyPath c == some p))) ∧
    groupByFile c7ex =
      [("a", [⟨3, some "a", some 2, none⟩, ⟨1, some "a", some 5, none⟩,
        ⟨2, some "a", some 5, none⟩])] := by
  rw [lookup_groupByFile] at h
  split at h
  · simp at h
  · simp only [Option.map] at h
    cases h
    refine ⟨sortComments_pairwise _, ?_, by decide⟩
    intro k
    rw [filter_sortComments, List.filter_filter]

/-- C7, witness: on the example list the `"a"` group is `[3, 1, 2]` and is
sorted by the effective line number. -/
theorem C7_witness :
    ([⟨3, some "a", some 2, none⟩, ⟨1, some "a", some 5, none⟩,
      ⟨2, some "a", some 5, none⟩] : List Comment).Pairwise
      (fun a b => getCommentLineNumber a ≤ getCommentLineNumber b) :=
  (C7_group_sort_stable c7ex "a"
    [⟨3, some "a", some 2, none⟩, ⟨1, some "a", some 5, none⟩, ⟨2, some "a", some 5, none⟩]
    (by decide)).1

/-- C10, confirmed: the groups partition exactly the truthy-path comments —
the group of `p` is a permutation of (precisely, the sorted reordering of)
the input comments whose truthy path is `p`, a path with no such comments
has no group, comments with a falsy path are excluded from every group and
collected by the `console.warn` diagnostic instead of being thrown or
grouped under a default key, and no group is empty. -/
theorem C10_partition (cs : List Comment) (p : String) :
    (∀ g, List.lookup p (groupByFile cs) = some g →
      g.Perm (cs.filter (fun c => truthyPath c == some p))) ∧
    (List.lookup p (groupByFile cs) = none →
      cs.filter (fun c => truthyPath c == some p) = []) ∧
    groupWarnings cs = cs.filter (fun c => truthyPath c == none) ∧
    (∀ pr ∈ groupByFile cs, pr.2 ≠ []) := by
  refine ⟨?_, ?_, ?_, ?_⟩
  · intro g h
    rw [lookup_groupByFile] at h
    split at h
    · simp at h
    · simp only [Option.map] at h
      cases h
      exact sortComments_perm _
  · intro h
    rw [lookup_groupByFile] at h
    split at h
    · next hnil => exact hnil
    · simp at h
  · simp [groupWarnings, groupPhaseLog_snd]
  · intro pr hpr
    simp only [groupByFile, List.mem_map] at hpr
    obtain ⟨pr0, hpr0, rfl⟩ := hpr
    have hne := groupPhaseLog_ne_nil cs [] [] (by simp) pr0 hpr0
    intro hnil
    apply hne
    have hnil' : sortComments pr0.2 = [] := hnil
    have hlen := (sortComments_perm pr0.2).length_eq
    rw [hnil'] at hlen
    exact List.length_eq_zero.mp (by simpa using hlen.symm)

/-- The C10 witness input: one comment with a truthy path, one with no
path, one with the falsy empty-string path. -/
def c10ex : List Comment :=
  [⟨1, some "a", some 1, none⟩, ⟨2, none, some 2, none⟩, ⟨3, some "", some 3, none⟩]

/-- C10, witness: on the example, the `"a"` group is exactly the one
truthy-path comment, both pathless comments land in the warn log, and the
group of `"a"` is non-empty. -/
theorem C10_witness :
    ([⟨1, some "a", some 1, none⟩] : List Comment).Perm
      (c10ex.filter (fun c => truthyPath c == some "a")) ∧
    groupWarnings c10ex = c10ex.filter (fun c => truthyPath c == none) ∧
    (("a", [⟨1, some "a", some 1, none⟩]) : String × List Comment).2 ≠ [] :=
  ⟨(C10_partition c10ex "a").1 [⟨1, some "a", some 1, none⟩] (by decide),
   (C10_partition c10ex "a").2.2.1,
   (C10_partition c10ex "a").2.2.2 ("a", [⟨1, some "a", some 1, none⟩]) (by decide)⟩

/-- C9, counterexample.  `formatDiffForTable(null)` does not throw: `null`
is falsy, so the guard `if (!patch)` silently coerces the non-string input
into the rendered placeholder result, contradicting the claimed fail-fast
behaviour for non-string patches. -/
theorem C9_counterexample :
    formatDiffForTableJs hlId .vnull = .ok noDiffPlaceholder ∧
    (formatDiffForTableJs hlId .vnull).isOk = true := by
  decide

/-- C9, amended: `groupByFile` does fail fast with its descriptive error on
any non-array; but `formatDiffForTable` performs no type check — every
falsy non-string patch (`null`, `undefined`, `0`, `false`) is silently
coerced to the placeholder result, and a truthy non-string throws a
`TypeError` from the `patch.split` call rather than a descriptive error. -/
theorem C9_type_check_amended :
    groupByFileJs none = .error "groupByFile expects an array as input" ∧
    (∀ cs : List Comment, groupByFileJs (some cs) = .ok (groupByFile cs)) ∧
    (∀ hl : String → Option String,
      formatDiffForTableJs hl .vnull = .ok noDiffPlaceholder ∧
      formatDiffForTableJs hl .vundefined = .ok noDiffPlaceholder ∧
      formatDiffForTableJs hl (.vnum 0) = .ok noDiffPlaceholder ∧
      formatDiffForTableJs hl (.vbool false) = .ok noDiffPlaceholder ∧
      formatDiffForTableJs hl (.vnum 5) = .error "TypeError: patch.split is not a function") :=
  ⟨rfl, fun _ => rfl, fun _ => ⟨rfl, rfl, rfl, rfl, rfl⟩⟩

end SPRR
